import Mathlib

/-
Verification of the source structural analysis engine of the code-search
MCP repository: the block range resolver and code item locator
(tools/viewCodeItem.ts), the outline extractor (tools/viewFileOutline.ts)
and the dependency resolver (tools/viewFilesFullContext.ts).

Strings are modelled on their character lists (`String.data`), and the
JavaScript string methods used by the source (`startsWith`, `endsWith`,
`includes`, `trim`, `split`, first-occurrence `replace`) are given
explicit recursive definitions below, so that every definition is
executable and every concrete instance can be settled by `decide`.
Filesystem paths handled by the dependency resolver are modelled as lists
of path segments (the JavaScript source builds them only through
`path.join` of a base directory with plain entry names), and the
filesystem itself as explicit functions passed to each operation.
-/

namespace CodeSearch

/-- Whitespace test matching the JavaScript regexp class used by the source. -/
def isWSChar (c : Char) : Bool :=
  c == ' ' || c == '\t' || c == '\n' || c == '\r' || c == '\x0b' || c == '\x0c'

/-- Boolean prefix test on character lists (JavaScript `String.startsWith`). -/
def chrsPrefix : List Char → List Char → Bool
  | [], _ => true
  | _ :: _, [] => false
  | p :: ps, c :: cs => p == c && chrsPrefix ps cs

/-- Boolean suffix test on character lists (JavaScript `String.endsWith`). -/
def chrsSuffix (p s : List Char) : Bool :=
  chrsPrefix p.reverse s.reverse

/-- Boolean substring test on character lists (JavaScript `String.includes`). -/
def chrsSub (p : List Char) : List Char → Bool
  | [] => chrsPrefix p []
  | c :: cs => chrsPrefix p (c :: cs) || chrsSub p cs

/-- String-level prefix test, modelling JavaScript `s.startsWith(p)`. -/
def strStarts (s p : String) : Bool := chrsPrefix p.data s.data

/-- String-level suffix test, modelling JavaScript `s.endsWith(p)`. -/
def strEnds (s p : String) : Bool := chrsSuffix p.data s.data

/-- String-level substring test, modelling JavaScript `s.includes(p)`. -/
def strHasSub (s p : String) : Bool := chrsSub p.data s.data

/-- Single-character containment, modelling JavaScript `s.includes(c)` for a
one-character needle. -/
def lineHasChar (s : String) (c : Char) : Bool := s.data.contains c

/-- JavaScript `String.trim`: strip whitespace from both ends. -/
def strTrim (s : String) : String :=
  String.mk (((s.data.dropWhile isWSChar).reverse.dropWhile isWSChar).reverse)

/-- JavaScript `String.split` with a one-character separator: every occurrence
splits, empty pieces are kept, and the empty string yields one empty piece. -/
def splitChar (sep : Char) : List Char → List (List Char)
  | [] => [[]]
  | c :: cs =>
    if c == sep then [] :: splitChar sep cs
    else
      match splitChar sep cs with
      | [] => [[c]]
      | s :: ss => (c :: s) :: ss

/-- Split a string into its lines, modelling `content.split("\n")`. -/
def splitLines (s : String) : List String :=
  (splitChar '\n' s.data).map String.mk

/-- Last dot-separated segment of a qualified name, modelling the source's
`className.split(".").pop() || ""`. -/
def lastSegStr (s : String) : String :=
  String.mk ((splitChar '.' s.data).getLastD [])

/-- JavaScript `s.replace(pat, "")` for a plain-string pattern: remove the
first occurrence of `pat`, leaving `s` unchanged when absent. -/
def removeFirstL (pat : List Char) : List Char → List Char
  | [] => []
  | c :: cs => if chrsPrefix pat (c :: cs) then (c :: cs).drop pat.length
               else c :: removeFirstL pat cs

/-- String-level first-occurrence removal (`s.replace(pat, "")`). -/
def removeFirst (s pat : String) : String := String.mk (removeFirstL pat.data s.data)

/-- JavaScript `String.toLowerCase`, restricted to the simple per-character
lowering that the source's ASCII vocabulary exercises. -/
def strLower (s : String) : String := String.mk (s.data.map Char.toLower)

/-!  Block Range Resolver — embedding of tools/viewCodeItem.ts  -/

/-- Walk upward from the hit line while the previous line is blank, an
annotation line or a comment line/continuation; stop at the first other
line or at the file start.  Embeds `findSignatureStart` (viewCodeItem.ts
lines 146-165). -/
def findSignatureStart (lines : List String) : Nat → Nat
  | 0 => 0
  | i + 1 =>
    if strTrim (lines.getD i "") == "" then findSignatureStart lines i
    else if strStarts (strTrim (lines.getD i "")) "@"
         || strStarts (strTrim (lines.getD i "")) "*"
         || strStarts (strTrim (lines.getD i "")) "/**"
         || strStarts (strTrim (lines.getD i "")) "*/" then findSignatureStart lines i
    else if strEnds (strTrim (lines.getD i "")) ";"
         || strEnds (strTrim (lines.getD i "")) "\x7d"
         || strStarts (strTrim (lines.getD i "")) "\x7d" then i + 1
    else i + 1

/-- The combined condition under which `findSignatureStart` steps past a line. -/
def sigSkipLine (line : String) : Bool :=
  strTrim line == "" || strStarts (strTrim line) "@" || strStarts (strTrim line) "*"
    || strStarts (strTrim line) "/**" || strStarts (strTrim line) "*/"

/-- Scan of `findSignatureEndIndex` over the remaining lines, carrying the
absolute index of the current line. -/
def fseGoAux : List String → Nat → Option Nat
  | [], _ => none
  | l :: ls, i =>
    if lineHasChar l '{' then none
    else if lineHasChar l ';' then some i
    else fseGoAux ls (i + 1)

/-- Forward scan for a statement terminator appearing before any opening
brace.  Embeds `findSignatureEndIndex` (viewCodeItem.ts lines 186-197);
`none` models the source's `-1`. -/
def findSignatureEndIndex (lines : List String) (startIndex : Nat) : Option Nat :=
  fseGoAux (lines.drop startIndex) startIndex

/-- Scan of `findOpenBraceIndex` over the remaining lines. -/
def foGoAux : List String → Nat → Option Nat
  | [], _ => none
  | l :: ls, i => if lineHasChar l '{' then some i else foGoAux ls (i + 1)

/-- First line at or after `startIndex` containing an opening brace.  Embeds
`findOpenBraceIndex` (viewCodeItem.ts lines 172-179). -/
def findOpenBraceIndex (lines : List String) (startIndex : Nat) : Option Nat :=
  foGoAux (lines.drop startIndex) startIndex

/-- Character-by-character brace-depth scan of one line; `none` signals that
the depth returned to zero on this line. -/
def scanChars : List Char → Int → Option Int
  | [], d => some d
  | c :: cs, d =>
    if c == '{' then scanChars cs (d + 1)
    else if c == '}' then
      if d - 1 = 0 then none else scanChars cs (d - 1)
    else scanChars cs d

/-- Scan of `findMatchingBraceIndex` over the remaining lines. -/
def fmGoAux : List String → Nat → Int → Option Nat
  | [], _, _ => none
  | l :: ls, i, d =>
    match scanChars l.data d with
    | none => some i
    | some d2 => fmGoAux ls (i + 1) d2

/-- Brace-depth matching from the opening-brace line.  Embeds
`findMatchingBraceIndex` (viewCodeItem.ts lines 204-220); `none` models the
source's `-1` at end of file. -/
def findMatchingBraceIndex (lines : List String) (openIndex : Nat) : Option Nat :=
  fmGoAux (lines.drop openIndex) openIndex 0

/-- Full block-range resolution for a hit line.  Embeds `findBlockRange`
(viewCodeItem.ts lines 124-139); `none` models the source's `null`. -/
def findBlockRange (lines : List String) (hitIndex : Nat) : Option (Nat × Nat) :=
  match findSignatureEndIndex lines (findSignatureStart lines hitIndex) with
  | some signatureEndIndex => some (findSignatureStart lines hitIndex, signatureEndIndex)
  | none =>
    match findOpenBraceIndex lines (findSignatureStart lines hitIndex) with
    | none => none
    | some openIndex =>
      match findMatchingBraceIndex lines openIndex with
      | none => none
      | some endIndex => some (findSignatureStart lines hitIndex, endIndex)

/-- Result record of `extractSnippet` (viewCodeItem.ts lines 45-50). -/
structure SnippetResult where
  found : Bool
  text : String
  startLine : Option Nat := none
  endLine : Option Nat := none

/-- Pure core of `extractSnippet` (viewCodeItem.ts lines 57-93), given the
file's content in place of the `readFileSync` call that produced it. -/
def extractSnippetCore (filePath content itemName : String) : SnippetResult :=
  match (splitLines content).findIdx? (fun line => strHasSub line itemName) with
  | none =>
    { found := false
      text := "--- 文件: " ++ filePath ++ " (错误: 找不到代码项 '" ++ itemName ++ "') ---" }
  | some itemIndex =>
    match findBlockRange (splitLines content) itemIndex with
    | none =>
      { found := true
        text := "--- 文件: " ++ filePath ++ " (第 " ++ Nat.repr (max 0 (itemIndex - 10) + 1)
          ++ " 行至第 " ++ Nat.repr (min (splitLines content).length (itemIndex + 60))
          ++ " 行, 定位: '" ++ itemName ++ "') ---\n\n"
          ++ String.intercalate "\n"
            (((splitLines content).drop (max 0 (itemIndex - 10))).take
              (min (splitLines content).length (itemIndex + 60) - max 0 (itemIndex - 10)))
        startLine := some (max 0 (itemIndex - 10) + 1)
        endLine := some (min (splitLines content).length (itemIndex + 60)) }
    | some blockRange =>
      { found := true
        text := "--- 文件: " ++ filePath ++ " (第 " ++ Nat.repr (blockRange.1 + 1)
          ++ " 行至第 " ++ Nat.repr (blockRange.2 + 1) ++ " 行, 定位: '" ++ itemName
          ++ "') ---\n\n"
          ++ String.intercalate "\n"
            (((splitLines content).drop blockRange.1).take (blockRange.2 + 1 - blockRange.1))
        startLine := some (blockRange.1 + 1)
        endLine := some (blockRange.2 + 1) }

/-!  Outline Extractor — embedding of tools/viewFileOutline.ts (Java branch)  -/

/-- Upward annotation collection of `parseOutline`'s Java branch
(viewFileOutline.ts lines 100-114).  The first argument is `j + 1` where
`j` is the line index currently examined, so `0` encodes the source's
`j = -1` loop exit. -/
def annScan (lines : List String) : Nat → List String → List String
  | 0, acc => acc
  | j + 1, acc =>
    if strStarts (strTrim (lines.getD j "")) "@" then
      annScan lines j (strTrim (lines.getD j "") :: acc)
    else if strTrim (lines.getD j "") == "" || strStarts (strTrim (lines.getD j "")) "*"
        || strStarts (strTrim (lines.getD j "")) "//" then
      annScan lines j acc
    else acc

/-- Signature construction of `parseOutline` for a Java match at `index`
(viewFileOutline.ts lines 94-117): the collected annotations, when any,
are joined by spaces and prepended to the trimmed matched line. -/
def javaSignature (lines : List String) (index : Nat) : String :=
  if (annScan lines index []).isEmpty then strTrim (lines.getD index "")
  else String.intercalate " " (annScan lines index []) ++ " " ++ strTrim (lines.getD index "")

/-- Declarative description of the collected annotations: the annotation
lines among lines `k ≤ j < n`, trimmed, in order. -/
def annsRange (lines : List String) (k n : Nat) : List String :=
  (List.range' k (n - k)).filterMap (fun j =>
    if strStarts (strTrim (lines.getD j "")) "@" then some (strTrim (lines.getD j "")) else none)

/-!  Dependency Resolver vocabulary — embedding of tools/viewFilesFullContext.ts  -/

/-- A resolved project import (viewFilesFullContext.ts lines 16-19). -/
structure ResolvedImportInfo where
  className : String
  resolvedPath : String
deriving DecidableEq

/-- A Java field extracted from a model class (viewFilesFullContext.ts
lines 24-28). -/
structure JavaFieldInfo where
  name : String
  type : String
  comment : String
deriving DecidableEq

/-- The path normalisation applied by the model classifier: backslashes to
slashes, then lower case. -/
def normPathLower (p : String) : String :=
  strLower (String.mk (p.data.map (fun c => if c == '\\' then '/' else c)))

/-- Model-likeness classification of a resolved import.  Embeds
`isModelLikeClass` (viewFilesFullContext.ts lines 274-303). -/
def isModelLikeClass (simpleName resolvedPath : String) : Bool :=
  if strHasSub (normPathLower resolvedPath) "/dto/"
    || strHasSub (normPathLower resolvedPath) "/vo/"
    || strHasSub (normPathLower resolvedPath) "/entity/"
    || strHasSub (normPathLower resolvedPath) "/model/"
    || strHasSub (normPathLower resolvedPath) "/po/"
    || strHasSub (normPathLower resolvedPath) "/bo/"
    || strHasSub (normPathLower resolvedPath) "/query/"
    || strHasSub (normPathLower resolvedPath) "/request/"
    || strHasSub (normPathLower resolvedPath) "/response/"
    || strHasSub (normPathLower resolvedPath) "/enums/"
    || strHasSub (normPathLower resolvedPath) "/enum/"
  then true
  else ["dto", "vo", "entity", "model", "po", "bo", "query", "request", "response", "enum"].any
    (fun suffix => strEnds (strLower simpleName) suffix)

/-- Character class of the field-name capture group `[a-zA-Z0-9_$]`. -/
def identClsChar (c : Char) : Bool := c.isAlphanum || c == '_' || c == '$'

/-- Character class of the field-type capture group of the field regexp in
`extractJavaFieldDetails`. -/
def typeClsChar (c : Char) : Bool :=
  c.isAlphanum || c == '_' || c == '<' || c == '>' || c == ','
    || isWSChar c || c == '[' || c == ']' || c == '?'

/-- Backtracking matcher for the field declaration regexp of
`extractJavaFieldDetails` (viewFilesFullContext.ts line 360), anchored at
the line start; greedy quantifiers try the longest consumption first, as
the JavaScript engine does.  Returns the two capture groups (raw type and
field name) of the first successful decomposition. -/
def matchFieldLine (cs0 : List Char) : Option (String × String) :=
  let step9 : List Char → List Char → List Char → Option (String × String) := fun ty nm cs =>
    match cs with
    | ';' :: _ => some (String.mk ty, String.mk nm)
    | _ => none
  let step8 : List Char → List Char → List Char → Option (String × String) := fun ty nm cs =>
    (match cs with
     | '=' :: rest =>
        (List.range (rest.length + 1)).findSome?
          (fun i => step9 ty nm (rest.drop (rest.length - i)))
     | _ => none) <|> step9 ty nm cs
  let step7 : List Char → List Char → List Char → Option (String × String) := fun ty nm cs =>
    (List.range ((cs.takeWhile isWSChar).length + 1)).findSome?
      (fun i => step8 ty nm (cs.drop ((cs.takeWhile isWSChar).length - i)))
  let step6 : List Char → List Char → Option (String × String) := fun ty cs =>
    (List.range (cs.takeWhile identClsChar).length).findSome?
      (fun i => step7 ty (cs.take ((cs.takeWhile identClsChar).length - i))
        (cs.drop ((cs.takeWhile identClsChar).length - i)))
  let step5 : List Char → List Char → Option (String × String) := fun ty cs =>
    if (cs.takeWhile isWSChar).length == 0 then none
    else (List.range (cs.takeWhile isWSChar).length).findSome?
      (fun i => step6 ty (cs.drop ((cs.takeWhile isWSChar).length - i)))
  let step4 : List Char → Option (String × String) := fun cs =>
    (List.range (cs.takeWhile typeClsChar).length).findSome?
      (fun i => step5 (cs.take ((cs.takeWhile typeClsChar).length - i))
        (cs.drop ((cs.takeWhile typeClsChar).length - i)))
  let step3 : List Char → Option (String × String) := fun cs =>
    (if chrsPrefix "final".data cs then
      (if ((cs.drop 5).takeWhile isWSChar).length == 0 then none
       else (List.range ((cs.drop 5).takeWhile isWSChar).length).findSome?
         (fun i => step4 ((cs.drop 5).drop (((cs.drop 5).takeWhile isWSChar).length - i))))
     else none) <|> step4 cs
  let step2 : List Char → Option (String × String) := fun cs =>
    (if chrsPrefix "static".data cs then
      (if ((cs.drop 6).takeWhile isWSChar).length == 0 then none
       else (List.range ((cs.drop 6).takeWhile isWSChar).length).findSome?
         (fun i => step3 ((cs.drop 6).drop (((cs.drop 6).takeWhile isWSChar).length - i))))
     else none) <|> step3 cs
  let step1 : List Char → Option (String × String) := fun cs =>
    (List.range ((cs.takeWhile isWSChar).length + 1)).findSome?
      (fun i => step2 (cs.drop ((cs.takeWhile isWSChar).length - i)))
  (["public".data, "protected".data, "private".data].findSome?
    (fun w => if chrsPrefix w cs0 then step1 (cs0.drop w.length) else none)) <|> step1 cs0

/-- Consumption of the body of a doc-block comment by
`extractJavaFieldDetails` (viewFilesFullContext.ts lines 329-343): cleaned
buffer entries up to and including the line containing the comment closer,
paired with the remaining lines after it. -/
def blockCommentScan : List String → (List String × List String)
  | [] => ([], [])
  | l :: ls =>
    if strHasSub (strTrim l) "*/" then
      ([strTrim (removeFirst (removeFirst (strTrim l) "*/") "*")], ls)
    else
      ((strTrim (removeFirst (strTrim l) "*")) :: (blockCommentScan ls).1,
        (blockCommentScan ls).2)

/-- Line loop of `extractJavaFieldDetails` (viewFilesFullContext.ts lines
324-370), carrying the pending comment; the fuel argument, instantiated
with the number of lines, bounds the recursion through the block-comment
consumption. -/
def ejfdGo : Nat → List String → String → List JavaFieldInfo
  | 0, _, _ => []
  | _ + 1, [], _ => []
  | fuel + 1, l :: rest, pending =>
    if strStarts (strTrim l) "/**" then
      ejfdGo fuel (blockCommentScan rest).2
        (String.intercalate " "
          ((strTrim (removeFirst (strTrim l) "/**") :: (blockCommentScan rest).1).filter
            (fun x => x != "")))
    else if strStarts (strTrim l) "//" then
      ejfdGo fuel rest (strTrim (removeFirst (strTrim l) "//"))
    else if strStarts (strTrim l) "@" then
      ejfdGo fuel rest pending
    else if lineHasChar (strTrim l) '(' then
      ejfdGo fuel rest ""
    else
      match matchFieldLine (strTrim l).data with
      | some (ty, nm) =>
        { name := strTrim nm, type := strTrim ty, comment := strTrim pending }
          :: ejfdGo fuel rest ""
      | none => ejfdGo fuel rest pending

/-- Field extraction from a model class file.  Embeds
`extractJavaFieldDetails` (viewFilesFullContext.ts lines 310-373). -/
def extractJavaFieldDetails (content : String) : List JavaFieldInfo :=
  ejfdGo (splitLines content).length (splitLines content) ""

/-- Rendered entries of the `LOCAL_IMPORTS` section (viewFilesFullContext.ts
lines 136-139): the first twenty resolved imports. -/
def localImportsRendered (resolvedImports : List ResolvedImportInfo) : List String :=
  (resolvedImports.take 20).map
    (fun item => "  - " ++ lastSegStr item.className ++ " => " ++ item.resolvedPath)

/-- Rendered entries of the fallback `LOCAL_IMPORTS` section
(viewFilesFullContext.ts lines 161-164): the first twenty of the
fallback-resolved entries. -/
def fallbackImportsRendered (fallbackResolved : List ResolvedImportInfo) : List String :=
  (fallbackResolved.take 20).map
    (fun item => "  - " ++ lastSegStr item.className ++ " => " ++ item.resolvedPath)

/-- The model-like subset of the resolved imports (viewFilesFullContext.ts
lines 168-171). -/
def modelImportsOf (resolvedImports : List ResolvedImportInfo) : List ResolvedImportInfo :=
  resolvedImports.filter
    (fun item => isModelLikeClass (lastSegStr item.className) item.resolvedPath)

/-- Expanded entries of the `MODEL_FIELDS` section (viewFilesFullContext.ts
lines 174-190): the first fifteen model-like imports, each expanded to its
simple name, resolved path and extracted field list; `readFile` stands for
the `readFileSync` call on the resolved path. -/
def modelFieldsRendered (readFile : String → String)
    (modelImports : List ResolvedImportInfo) : List (String × String × List JavaFieldInfo) :=
  (modelImports.take 15).map
    (fun item => (lastSegStr item.className, item.resolvedPath,
      extractJavaFieldDetails (readFile item.resolvedPath)))

/-!  Import scanning loop — embedding of viewFilesFullContext.ts lines 115-151  -/

/-- Mutable state of the import loop: the resolved imports, the set of
already-resolved qualified names, and the per-simple-name occurrence
counter (a JavaScript `Map`, modelled as an insertion-ordered association
list). -/
structure ImportScan where
  resolvedImports : List ResolvedImportInfo
  seenImport : List String
  projectImportCount : List (String × Nat)

/-- `projectImportCount.set(k, (projectImportCount.get(k) || 0) + 1)`:
increment the entry of `k` in place, appending a fresh entry when absent. -/
def bumpCount : List (String × Nat) → String → List (String × Nat)
  | [], k => [(k, 1)]
  | (k', n) :: rest, k =>
    if k' == k then (k', n + 1) :: rest else (k', n) :: bumpCount rest k

/-- `projectImportCount.get(k) || 0`. -/
def countGet : List (String × Nat) → String → Nat
  | [], _ => 0
  | (k', n) :: rest, s => if k' == s then n else countGet rest s

/-- Resolution attempt of the loop body (viewFilesFullContext.ts lines
125-129): on success the import is recorded and its qualified name marked
seen.  `resolve` stands for `resolveJavaPathGeneric` and `pExists` for
`pathExists` on the resolved path. -/
def resolveStep (resolve : String → Option String) (pExists : String → Bool)
    (st : ImportScan) (className : String) : ImportScan :=
  match resolve className with
  | some resolved =>
    if pExists resolved then
      { st with
        resolvedImports := st.resolvedImports ++ [⟨className, resolved⟩]
        seenImport := st.seenImport ++ [className] }
    else st
  | none => st

/-- Counting part of the loop body (viewFilesFullContext.ts lines 130-133). -/
def countStep (st : ImportScan) (className : String) : ImportScan :=
  if lastSegStr className != "" then
    { st with
      projectImportCount := bumpCount st.projectImportCount (lastSegStr className) }
  else st

/-- One iteration of the import loop (viewFilesFullContext.ts lines
118-134) on an extracted qualified import name. -/
def importStep (resolve : String → Option String) (pExists : String → Bool)
    (projectPrefix : String) (st : ImportScan) (className : String) : ImportScan :=
  if ! strStarts className (projectPrefix ++ ".") then st
  else if strHasSub className ".annotation." then st
  else if st.seenImport.contains className then st
  else countStep (resolveStep resolve pExists st className) className

/-- The full import loop over the file's extracted import names. -/
def scanImports (resolve : String → Option String) (pExists : String → Bool)
    (projectPrefix : String) (classNames : List String) : ImportScan :=
  classNames.foldl (importStep resolve pExists projectPrefix) ⟨[], [], []⟩

/-- The simple names handed to the fallback walk (viewFilesFullContext.ts
lines 143-151): counted at most once and not matched by the trailing
segment of any resolved entry. -/
def unresolvedCandidates (st : ImportScan) : List String :=
  (st.projectImportCount.filter (fun p => decide (p.2 ≤ 1)
    && !(st.resolvedImports.any (fun item => strEnds item.className ("." ++ p.1))))).map
    (fun p => p.1)

/-- Occurrence predicate of the claim: a project-prefixed and
non-annotation entry whose simple name is `s`. -/
def specOcc (projectPrefix s c : String) : Bool :=
  strStarts c (projectPrefix ++ ".") && !(strHasSub c ".annotation.")
    && (lastSegStr c == s)

/-- Number of occurrences of simple name `s` among the file's
project-prefixed, non-annotation imports. -/
def specCount (projectPrefix s : String) (classNames : List String) : Nat :=
  (classNames.filter (specOcc projectPrefix s)).length

/-- Invariant of the import loop state: seen names are exactly the resolved
class names, resolved class names are project-prefixed, and the counter
has distinct keys with positive counts and non-empty names. -/
def StInv (projectPrefix : String) (st : ImportScan) : Prop :=
  st.seenImport = st.resolvedImports.map (fun r => r.className)
  ∧ (∀ r ∈ st.resolvedImports, strStarts r.className (projectPrefix ++ ".") = true)
  ∧ (st.projectImportCount.map Prod.fst).Nodup
  ∧ (∀ p ∈ st.projectImportCount, 1 ≤ p.2 ∧ p.1 ≠ "")

/-!  Dependency resolution — embedding of viewFilesFullContext.ts lines 381-558.
Paths are lists of path segments (the source builds every path by
`path.join` of a base directory with plain entry names), and the
filesystem is an explicit record of the three primitives the source
uses: `fs.existsSync`, `fs.readdirSync` (with `none` modelling a thrown
error) and `fs.readFileSync` (with `none` modelling a thrown error).  -/

/-- A directory entry (`fs.Dirent`). -/
structure FSEntry where
  name : String
  isDir : Bool
deriving DecidableEq

/-- The filesystem primitives used by the dependency resolver. -/
structure FileSys where
  fsExists : List String → Bool
  readdir : List String → Option (List FSEntry)
  readFile : List String → Option String

/-- A fallback-resolved import with its path in segment form. -/
structure ResolvedImportSeg where
  className : String
  resolvedPath : List String
deriving DecidableEq

/-- Whether a directory holds at least two module `src/main/java` roots.
Embeds `hasModuleJavaRoots` (viewFilesFullContext.ts lines 499-519). -/
def hasModuleJavaRoots (fsys : FileSys) (root : List String) : Bool :=
  match fsys.readdir root with
  | none => false
  | some entries =>
    decide (2 ≤ (entries.filter (fun e => e.isDir
      && fsys.fsExists (root ++ [e.name, "src", "main", "java"]))).length)

/-- The upward loop of `findProjectRoot` (viewFilesFullContext.ts lines
452-463), recording the last ancestor containing `src` and the last
multi-module ancestor; the empty segment list is the filesystem root. -/
def rootScan (fsys : FileSys) :
    Nat → List String → Option (List String) → Option (List String) →
    Option (List String) × Option (List String)
  | 0, _, srcAcc, multiAcc => (srcAcc, multiAcc)
  | fuel + 1, current, srcAcc, multiAcc =>
    if current.isEmpty then (srcAcc, multiAcc)
    else
      rootScan fsys fuel current.dropLast
        (if fsys.fsExists (current ++ ["src"]) then some current else srcAcc)
        (if fsys.fsExists (current ++ ["pom.xml"]) && hasModuleJavaRoots fsys current
          then some current else multiAcc)

/-- The upward loop of `findTopPomRoot` (viewFilesFullContext.ts lines
481-492). -/
def pomScan (fsys : FileSys) : Nat → List String → Option (List String) → Option (List String)
  | 0, _, acc => acc
  | fuel + 1, current, acc =>
    if current.isEmpty then acc
    else pomScan fsys fuel current.dropLast
      (if fsys.fsExists (current ++ ["pom.xml"]) then some current else acc)

/-- Embeds `findTopPomRoot`. -/
def findTopPomRoot (fsys : FileSys) (startPath : List String) : Option (List String) :=
  pomScan fsys startPath.length startPath.dropLast none

/-- Embeds `findProjectRoot` (viewFilesFullContext.ts lines 446-474). -/
def findProjectRoot (fsys : FileSys) (startPath : List String) : Option (List String) :=
  if (findTopPomRoot fsys startPath).isSome
      && (rootScan fsys startPath.length startPath.dropLast none none).2.isSome then
    (rootScan fsys startPath.length startPath.dropLast none none).2
  else if (rootScan fsys startPath.length startPath.dropLast none none).2.isSome then
    (rootScan fsys startPath.length startPath.dropLast none none).2
  else (rootScan fsys startPath.length startPath.dropLast none none).1

/-- The relative path `${fullClassName.replace(/\./g, "/")}.java` in
segment form. -/
def classFileSegs (fullClassName : String) : List String :=
  ((splitChar '.' fullClassName.data).map String.mk).dropLast
    ++ [((splitChar '.' fullClassName.data).map String.mk).getLastD "" ++ ".java"]

/-- The entry loop of `findInDir` (viewFilesFullContext.ts lines 537-555),
with the recursive descent passed as `descend`. -/
def findInEntriesWith (fsys : FileSys) (classSegs : List String)
    (descend : List String → Option (List String)) :
    List String → List FSEntry → Option (List String)
  | _, [] => none
  | dir, e :: es =>
    if e.isDir then
      if fsys.fsExists (dir ++ [e.name, "src", "main", "java"]) then
        if fsys.fsExists (dir ++ [e.name, "src", "main", "java"] ++ classSegs) then
          some (dir ++ [e.name, "src", "main", "java"] ++ classSegs)
        else findInEntriesWith fsys classSegs descend dir es
      else if e.name != "node_modules" && e.name != ".git" && ! strStarts e.name "." then
        match descend (dir ++ [e.name]) with
        | some found => some found
        | none => findInEntriesWith fsys classSegs descend dir es
      else findInEntriesWith fsys classSegs descend dir es
    else findInEntriesWith fsys classSegs descend dir es

/-- The recursive module search of `resolveJavaPathGeneric`; the fuel
bounds the directory recursion depth, and `none` on a failed `readdir`
models the source's caught error. -/
def findInDir (fsys : FileSys) (classSegs : List String) : Nat → List String → Option (List String)
  | 0, _ => none
  | fuel + 1, dir =>
    match fsys.readdir dir with
    | none => none
    | some entries =>
      findInEntriesWith fsys classSegs (fun d => findInDir fsys classSegs fuel d) dir entries

/-- Embeds `resolveJavaPathGeneric` (viewFilesFullContext.ts lines
524-558): direct resolution under the root's `src/main/java`, then the
recursive module search. -/
def resolveJavaPathGeneric (fsys : FileSys) (fuel : Nat) (currentPath : List String)
    (fullClassName : String) : Option (List String) :=
  match findProjectRoot fsys currentPath with
  | none => none
  | some root =>
    if fsys.fsExists (root ++ ["src", "main", "java"]) then
      if fsys.fsExists (root ++ ["src", "main", "java"] ++ classFileSegs fullClassName) then
        some (root ++ ["src", "main", "java"] ++ classFileSegs fullClassName)
      else findInDir fsys (classFileSegs fullClassName) fuel root
    else findInDir fsys (classFileSegs fullClassName) fuel root

/-- First match of the package-declaration regexp at this position:
`package`, whitespace, a non-empty run of non-semicolon characters, then a
semicolon; the capture is the run. -/
def matchPackageAt (cs : List Char) : Option (List Char) :=
  if chrsPrefix "package".data cs then
    if ((cs.drop 7).takeWhile isWSChar).length == 0 then none
    else (List.range ((cs.drop 7).takeWhile isWSChar).length).findSome? (fun i =>
      if ((cs.drop 7).drop (((cs.drop 7).takeWhile isWSChar).length - i)).takeWhile
          (fun ch => ch != ';') == [] then none
      else if (((cs.drop 7).drop (((cs.drop 7).takeWhile isWSChar).length - i)).drop
          ((((cs.drop 7).drop (((cs.drop 7).takeWhile isWSChar).length - i)).takeWhile
            (fun ch => ch != ';')).length)).head? == some ';' then
        some (((cs.drop 7).drop (((cs.drop 7).takeWhile isWSChar).length - i)).takeWhile
          (fun ch => ch != ';'))
      else none)
  else none

/-- First match of the package-declaration regexp anywhere in the content. -/
def findPackageDecl : List Char → Option (List Char)
  | [] => none
  | c :: cs =>
    match matchPackageAt (c :: cs) with
    | some r => some r
    | none => findPackageDecl cs

/-- Embeds `extractPackageName` (viewFilesFullContext.ts lines 433-441). -/
def extractPackageName (fsys : FileSys) (filePath : List String) : Option String :=
  match fsys.readFile filePath with
  | none => none
  | some content =>
    match findPackageDecl content.data with
    | some cap => some (strTrim (String.mk cap))
    | none => none

/-- One directory entry of the fallback walk (viewFilesFullContext.ts lines
392-421), transforming the state (results, seen qualified names, stack). -/
def walkStep (fsys : FileSys) (nameSet : List String) (current : List String)
    (st : List ResolvedImportSeg × List String × List (List String)) (e : FSEntry) :
    List ResolvedImportSeg × List String × List (List String) :=
  if e.isDir then
    if e.name == "node_modules" || e.name == ".git" || strStarts e.name "." then st
    else (st.1, st.2.1, (current ++ [e.name]) :: st.2.2)
  else if ! strEnds e.name ".java" then st
  else if ! nameSet.contains (String.mk (e.name.data.take (e.name.data.length - 5))) then st
  else
    match extractPackageName fsys (current ++ [e.name]) with
    | none => st
    | some pkg =>
      if st.2.1.contains (pkg ++ "." ++ String.mk (e.name.data.take (e.name.data.length - 5)))
      then st
      else
        (st.1 ++ [⟨pkg ++ "." ++ String.mk (e.name.data.take (e.name.data.length - 5)),
            current ++ [e.name]⟩],
          st.2.1 ++ [pkg ++ "." ++ String.mk (e.name.data.take (e.name.data.length - 5))],
          st.2.2)

/-- The stack loop of the fallback walk (viewFilesFullContext.ts lines
390-424); `none` models the uncaught `readdirSync` error, which discards
all results. -/
def walkLoop (fsys : FileSys) (nameSet : List String) :
    Nat → List (List String) → List ResolvedImportSeg → List String →
    Option (List ResolvedImportSeg)
  | 0, _, _, _ => none
  | _ + 1, [], acc, _ => some acc
  | fuel + 1, current :: rest, acc, seen =>
    match fsys.readdir current with
    | none => none
    | some entries =>
      walkLoop fsys nameSet fuel
        (entries.foldl (walkStep fsys nameSet current) (acc, seen, rest)).2.2
        (entries.foldl (walkStep fsys nameSet current) (acc, seen, rest)).1
        (entries.foldl (walkStep fsys nameSet current) (acc, seen, rest)).2.1

/-- Embeds `resolveBySimpleNames` (viewFilesFullContext.ts lines 381-426). -/
def resolveBySimpleNames (fsys : FileSys) (fuel : Nat) (currentPath : List String)
    (simpleNames : List String) : Option (List ResolvedImportSeg) :=
  match findProjectRoot fsys currentPath with
  | none => some []
  | some root =>
    if simpleNames.isEmpty then some []
    else walkLoop fsys simpleNames fuel [root] [] []

/-- Concrete filesystem for the direct-resolution witness: a single-module
project root `proj` containing `src/main/java/com/x/B.java`. -/
def wfsA : FileSys :=
  { fsExists := fun p =>
      p == ["proj", "src"] || p == ["proj", "src", "main", "java"]
        || p == ["proj", "src", "main", "java", "com", "x", "B.java"]
    readdir := fun _ => none
    readFile := fun _ => none }

/-- Concrete filesystem for the fallback-resolution witness: the root
`proj` holds `B.java` declaring `package com.x;`. -/
def wfsB : FileSys :=
  { fsExists := fun p => p == ["proj", "src"]
    readdir := fun d => if d == ["proj"] then some [⟨"B.java", false⟩] else none
    readFile := fun f => if f == ["proj", "B.java"] then some "package com.x;" else none }

/-!  Lemmas about the signature-start backtrack  -/

theorem fss_step_core (t : String) (r y : Nat) :
    (if t == "" then r
     else if strStarts t "@" || strStarts t "*" || strStarts t "/**" || strStarts t "*/" then r
     else if strEnds t ";" || strEnds t "\x7d" || strStarts t "\x7d" then y else y)
    = if t == "" || strStarts t "@" || strStarts t "*" || strStarts t "/**" || strStarts t "*/"
      then r else y := by
  cases h1 : (t == "") <;>
  cases h2 : strStarts t "@" <;>
  cases h3 : strStarts t "*" <;>
  cases h4 : strStarts t "/**" <;>
  cases h5 : strStarts t "*/" <;>
  simp [h1, h2, h3, h4, h5]

theorem fss_step (lines : List String) (i : Nat) :
    findSignatureStart lines (i + 1) =
      if sigSkipLine (lines.getD i "") then findSignatureStart lines i else i + 1 := by
  simp only [findSignatureStart, sigSkipLine]
  exact fss_step_core (strTrim (lines.getD i "")) (findSignatureStart lines i) (i + 1)

theorem fss_le (lines : List String) : ∀ hit : Nat, findSignatureStart lines hit ≤ hit := by
  intro hit
  induction hit with
  | zero => exact Nat.le_refl 0
  | succ i ih =>
    rw [fss_step]
    split
    · exact Nat.le_trans ih (Nat.le_succ i)
    · exact Nat.le_refl _

theorem fss_run (lines : List String) :
    ∀ hit j : Nat, j < hit → findSignatureStart lines hit ≤ j →
      sigSkipLine (lines.getD j "") = true := by
  intro hit
  induction hit with
  | zero => intro j hj; omega
  | succ i ih =>
    intro j hj hle
    rw [fss_step] at hle
    by_cases h : sigSkipLine (lines.getD i "") = true
    · rw [if_pos h] at hle
      rcases Nat.lt_succ_iff_lt_or_eq.mp hj with hj' | hj'
      · exact ih j hj' hle
      · rw [hj']; exact h
    · rw [if_neg h] at hle; omega

theorem fss_stop (lines : List String) :
    ∀ hit : Nat, findSignatureStart lines hit = 0
      ∨ sigSkipLine (lines.getD (findSignatureStart lines hit - 1) "") = false := by
  intro hit
  induction hit with
  | zero => exact Or.inl rfl
  | succ i ih =>
    rw [fss_step]
    by_cases h : sigSkipLine (lines.getD i "") = true
    · rw [if_pos h]; exact ih
    · rw [if_neg h]
      exact Or.inr (by simpa using Bool.eq_false_iff.mpr (fun hc => h hc))

/-!  Lemmas about the forward scans  -/

theorem getD_drop {α : Type} (d : α) :
    ∀ (l : List α) (s k : Nat), (l.drop s).getD k d = l.getD (s + k) d := by
  intro l
  induction l with
  | nil => intro s k; cases s <;> rfl
  | cons a l ih =>
    intro s k
    cases s with
    | zero => rw [Nat.zero_add]; rfl
    | succ s =>
      show (l.drop s).getD k d = (a :: l).getD (s + 1 + k) d
      rw [ih s k]
      have : s + 1 + k = (s + k) + 1 := by omega
      rw [this, List.getD_cons_succ]

theorem lineHasChar_empty (c : Char) : lineHasChar "" c = false := rfl

theorem fseGoAux_le : ∀ (ls : List String) (i j : Nat), fseGoAux ls i = some j → i ≤ j := by
  intro ls
  induction ls with
  | nil => intro i j h; exact absurd h (by simp [fseGoAux])
  | cons l tl ih =>
    intro i j h
    unfold fseGoAux at h
    split at h
    · exact absurd h (by simp)
    · split at h
      · cases h; exact Nat.le_refl _
      · exact Nat.le_trans (Nat.le_succ i) (ih (i + 1) j h)

theorem fseGoAux_eq :
    ∀ (m : Nat) (ls : List String) (i : Nat),
      (∀ k, k < m → lineHasChar (ls.getD k "") '{' = false
        ∧ lineHasChar (ls.getD k "") ';' = false) →
      lineHasChar (ls.getD m "") '{' = false →
      lineHasChar (ls.getD m "") ';' = true →
      fseGoAux ls i = some (i + m) := by
  intro m
  induction m with
  | zero =>
    intro ls i _ hb hsemi
    cases ls with
    | nil => exact absurd hsemi (by simp [List.getD, lineHasChar_empty])
    | cons l tl =>
      simp only [List.getD_cons_zero] at hb hsemi
      unfold fseGoAux
      rw [if_neg (by simp [hb]), if_pos hsemi]
      rfl
  | succ m ih =>
    intro ls i hk hb hsemi
    cases ls with
    | nil => exact absurd hsemi (by simp [List.getD, lineHasChar_empty])
    | cons l tl =>
      have h0 := hk 0 (Nat.succ_pos m)
      simp only [List.getD_cons_zero] at h0
      unfold fseGoAux
      rw [if_neg (by simp [h0.1]), if_neg (by simp [h0.2])]
      have hres := ih tl (i + 1)
        (fun k hkm => by
          have := hk (k + 1) (by omega)
          simpa only [List.getD_cons_succ] using this)
        (by simpa only [List.getD_cons_succ] using hb)
        (by simpa only [List.getD_cons_succ] using hsemi)
      rw [hres]
      congr 1
      omega

theorem foGoAux_le : ∀ (ls : List String) (i j : Nat), foGoAux ls i = some j → i ≤ j := by
  intro ls
  induction ls with
  | nil => intro i j h; exact absurd h (by simp [foGoAux])
  | cons l tl ih =>
    intro i j h
    unfold foGoAux at h
    split at h
    · cases h; exact Nat.le_refl _
    · exact Nat.le_trans (Nat.le_succ i) (ih (i + 1) j h)

theorem fmGoAux_le :
    ∀ (ls : List String) (i : Nat) (d : Int) (j : Nat), fmGoAux ls i d = some j → i ≤ j := by
  intro ls
  induction ls with
  | nil => intro i d j h; exact absurd h (by simp [fmGoAux])
  | cons l tl ih =>
    intro i d j h
    unfold fmGoAux at h
    split at h
    · cases h; exact Nat.le_refl _
    · exact Nat.le_trans (Nat.le_succ i) (ih (i + 1) _ j h)

/-- Claim C1 (amended): for every line sequence and hit index, a range
returned by the Block Range Resolver satisfies `start ≤ hitIndex` and
`start ≤ end`.  (The original bound `hitIndex ≤ end` fails: a terminator or
brace inside the skipped annotation/comment run above the hit can close the
range before the hit line, see the counterexample.) -/
theorem findBlockRange_start_le_thm (lines : List String) (hit s e : Nat)
    (h : findBlockRange lines hit = some (s, e)) : s ≤ hit ∧ s ≤ e := by
  unfold findBlockRange at h
  split at h
  · next sigEnd hfse =>
    cases h
    refine ⟨fss_le lines hit, ?_⟩
    exact fseGoAux_le _ _ _ hfse
  · next hfse =>
    split at h
    · exact absurd h (by simp)
    · next openIndex hfo =>
      split at h
      · exact absurd h (by simp)
      · next endIndex hfm =>
        cases h
        refine ⟨fss_le lines hit, ?_⟩
        exact Nat.le_trans (foGoAux_le _ _ _ hfo) (fmGoAux_le _ _ _ _ hfm)

/-- Claim C1, counterexample to the original statement: with an annotation
line containing a semicolon directly above the hit line, the resolver
returns `{start := 0, end := 0}` for hit index `1`, so `hitIndex ≤ end`
fails. -/
theorem findBlockRange_end_lt_hit_cex :
    findBlockRange ["@A;", "foo"] 1 = some (0, 0) ∧ ¬ (1 ≤ 0) := by decide

/-- Witness for the amended Claim C1 at a concrete input. -/
theorem findBlockRange_start_le_witness : (0 : Nat) ≤ 0 ∧ (0 : Nat) ≤ 1 :=
  findBlockRange_start_le_thm ["a \x7b", "\x7d"] 0 0 1 (by decide)

/-- Claim C2 (confirmed): if, scanning forward from the computed signature
start `s`, some line `i` contains a statement terminator while no line from
`s` through `i` contains an opening brace and no line strictly before `i`
(at or after `s`) contains a terminator, then the resolver takes the
declaration-only branch (`findSignatureEndIndex` succeeds, so no brace
matching is performed) and the returned range ends exactly at line `i`. -/
theorem findBlockRange_terminator_thm (lines : List String) (hit i s : Nat)
    (hs : findSignatureStart lines hit = s) (hsi : s ≤ i)
    (hsemi : lineHasChar (lines.getD i "") ';' = true)
    (hnb : ∀ j (_ : j < i + 1), s ≤ j → lineHasChar (lines.getD j "") '{' = false)
    (hns : ∀ j (_ : j < i), s ≤ j → lineHasChar (lines.getD j "") ';' = false) :
    findSignatureEndIndex lines s = some i ∧ findBlockRange lines hit = some (s, i) := by
  have key : s + (i - s) = i := by omega
  have hfse : findSignatureEndIndex lines s = some i := by
    unfold findSignatureEndIndex
    have harg1 : ∀ k, k < i - s → lineHasChar ((lines.drop s).getD k "") '{' = false
        ∧ lineHasChar ((lines.drop s).getD k "") ';' = false := by
      intro k hkm
      rw [getD_drop]
      exact ⟨hnb (s + k) (by omega) (by omega), hns (s + k) (by omega) (by omega)⟩
    have harg2 : lineHasChar ((lines.drop s).getD (i - s) "") '{' = false := by
      rw [getD_drop, key]; exact hnb i (by omega) hsi
    have harg3 : lineHasChar ((lines.drop s).getD (i - s) "") ';' = true := by
      rw [getD_drop, key]; exact hsemi
    rw [fseGoAux_eq (i - s) (lines.drop s) s harg1 harg2 harg3, key]
  refine ⟨hfse, ?_⟩
  unfold findBlockRange
  rw [hs, hfse]

/-- Witness for Claim C2 at a concrete input. -/
theorem findBlockRange_terminator_witness :
    findSignatureEndIndex ["void foo();"] 0 = some 0
    ∧ findBlockRange ["void foo();"] 0 = some (0, 0) :=
  findBlockRange_terminator_thm ["void foo();"] 0 0 0 (by decide) (by decide) (by decide)
    (by decide) (by decide)

/-- Claim C3 (amended): the signature-start backtrack returns the first line
of the contiguous run of skippable lines (blank, annotation, or comment
lines) directly above the matched line, or the matched line itself when no
such run exists.  (The original claim excluded blank lines from the run and
asserted the result never points at a blank line; blank lines are in fact
skipped like comment lines, see the counterexample.) -/
theorem findSignatureStart_run_thm (lines : List String) (hit : Nat) :
    findSignatureStart lines hit ≤ hit
    ∧ (∀ j (_ : j < hit), findSignatureStart lines hit ≤ j →
        sigSkipLine (lines.getD j "") = true)
    ∧ (findSignatureStart lines hit = 0
        ∨ sigSkipLine (lines.getD (findSignatureStart lines hit - 1) "") = false) :=
  ⟨fss_le lines hit, fun j hj hle => fss_run lines hit j hj hle, fss_stop lines hit⟩

/-- Claim C3, counterexample to the original statement: with a blank line
directly above the hit, the backtrack returns index `0`, which is a blank
line and not the matched line. -/
theorem findSignatureStart_blank_cex :
    findSignatureStart ["", "foo"] 1 = 0 ∧ (0 : Nat) ≠ 1
    ∧ strTrim ((["", "foo"] : List String).getD 0 "") = "" := by decide

/-- Witness for the amended Claim C3 at a concrete input. -/
theorem findSignatureStart_run_witness :
    sigSkipLine ((["@A", "x"] : List String).getD 0 "") = true :=
  (findSignatureStart_run_thm ["@A", "x"] 1).2.1 0 (by decide) (by decide)

/-- Claim C9 (confirmed): the signature-start backtrack is idempotent:
re-running it from the computed start returns the same start. -/
theorem findSignatureStart_idem_thm (lines : List String) (hit : Nat) :
    findSignatureStart lines (findSignatureStart lines hit) = findSignatureStart lines hit := by
  induction hit with
  | zero => rfl
  | succ i ih =>
    rw [fss_step]
    by_cases h : sigSkipLine (lines.getD i "") = true
    · rw [if_pos h]; exact ih
    · rw [if_neg h, fss_step, if_neg h]

/-- Claim C7 (confirmed): when the item name is found at line `i` but the
Block Range Resolver returns no precise range, the Code Item Locator
returns a found result covering the fixed window from line `max 0 (i-10)`
(0-based) through line `min totalLines (i+60)`, so the caller never
receives an empty result. -/
theorem extractSnippet_window_thm (filePath content itemName : String) (i : Nat)
    (hidx : (splitLines content).findIdx? (fun line => strHasSub line itemName) = some i)
    (hnb : findBlockRange (splitLines content) i = none) :
    (extractSnippetCore filePath content itemName).found = true
    ∧ (extractSnippetCore filePath content itemName).startLine = some (max 0 (i - 10) + 1)
    ∧ (extractSnippetCore filePath content itemName).endLine
        = some (min (splitLines content).length (i + 60)) := by
  simp only [extractSnippetCore, hidx, hnb]
  refine ⟨?_, ?_, ?_⟩ <;> first | rfl | trivial

/-- Witness for Claim C7 at a concrete input. -/
theorem extractSnippet_window_witness :
    (extractSnippetCore "/tmp/F.java" "foo \x7b" "foo").found = true
    ∧ (extractSnippetCore "/tmp/F.java" "foo \x7b" "foo").startLine = some (max 0 (0 - 10) + 1)
    ∧ (extractSnippetCore "/tmp/F.java" "foo \x7b" "foo").endLine
        = some (min (splitLines "foo \x7b").length (0 + 60)) :=
  extractSnippet_window_thm "/tmp/F.java" "foo \x7b" "foo" 0 (by decide) (by decide)

/-!  The outline extractor's annotation backtrack  -/

theorem annsRange_succ (lines : List String) (k m : Nat) (hk : k ≤ m) :
    annsRange lines k (m + 1) = annsRange lines k m ++
      (if strStarts (strTrim (lines.getD m "")) "@" then [strTrim (lines.getD m "")] else []) := by
  unfold annsRange
  have h1 : m + 1 - k = (m - k) + 1 := by omega
  rw [h1, List.range'_concat, List.filterMap_append]
  have h2 : k + 1 * (m - k) = m := by omega
  rw [h2]
  congr 1
  simp only [List.filterMap_cons, List.filterMap_nil]
  generalize strTrim (lines.getD m "") = t
  by_cases hc : strStarts t "@" = true <;> simp [hc]

theorem annScan_spec (lines : List String) (k : Nat) :
    ∀ n acc, k ≤ n →
      (∀ j (_ : j < n), k ≤ j →
        strStarts (strTrim (lines.getD j "")) "@" = true
        ∨ (strTrim (lines.getD j "") == "" || strStarts (strTrim (lines.getD j "")) "*"
            || strStarts (strTrim (lines.getD j "")) "//") = true) →
      (k = 0 ∨ (strStarts (strTrim (lines.getD (k - 1) "")) "@" = false
        ∧ (strTrim (lines.getD (k - 1) "") == "" || strStarts (strTrim (lines.getD (k - 1) "")) "*"
            || strStarts (strTrim (lines.getD (k - 1) "")) "//") = false)) →
      annScan lines n acc = annsRange lines k n ++ acc := by
  intro n
  induction n with
  | zero =>
    intro acc hk _ _
    have hk0 : k = 0 := Nat.le_zero.mp hk
    subst hk0
    simp [annScan, annsRange]
  | succ m ih =>
    intro acc hk hrun hstop
    by_cases hkm : k = m + 1
    · subst hkm
      rcases hstop with h0 | ⟨hs1, hs2⟩
      · omega
      · simp only [Nat.add_sub_cancel] at hs1 hs2
        simp only [annScan]
        rw [if_neg (by rw [hs1]; decide), if_neg (by rw [hs2]; decide)]
        have hempty : annsRange lines (m + 1) (m + 1) = [] := by
          simp [annsRange]
        rw [hempty, List.nil_append]
    · have hk' : k ≤ m := by omega
      have hm := hrun m (by omega) (by omega)
      rw [annsRange_succ lines k m hk']
      cases hcase : strStarts (strTrim (lines.getD m "")) "@" with
      | true =>
        simp only [annScan]
        rw [if_pos hcase]
        rw [ih (strTrim (lines.getD m "") :: acc) hk'
            (fun j hj hkj => hrun j (by omega) hkj) hstop]
        simp
      | false =>
        have hpass : (strTrim (lines.getD m "") == ""
            || strStarts (strTrim (lines.getD m "")) "*"
            || strStarts (strTrim (lines.getD m "")) "//") = true := by
          rcases hm with h | h
          · rw [hcase] at h; exact absurd h (by simp)
          · exact h
        simp only [annScan]
        rw [if_neg (by rw [hcase]; decide), if_pos hpass]
        rw [ih acc hk' (fun j hj hkj => hrun j (by omega) hkj) hstop]
        simp

/-- Claim C6 (amended): for Java files, the outline extractor's signature
construction backtracks over the preceding lines, collecting annotation
lines and passing over blank lines and comment continuations, and stops at
the first line that is none of these (in particular at doc-comment
openers); the collected annotations, joined by single spaces, are prepended
to the matched line's trimmed text.  (The original claim said the backtrack
stops at the first blank line; blank lines are in fact passed over, see the
counterexample.) -/
theorem javaSignature_collect_thm (lines : List String) (index k : Nat)
    (hk : k ≤ index)
    (hrun : ∀ j (_ : j < index), k ≤ j →
      strStarts (strTrim (lines.getD j "")) "@" = true
      ∨ (strTrim (lines.getD j "") == "" || strStarts (strTrim (lines.getD j "")) "*"
          || strStarts (strTrim (lines.getD j "")) "//") = true)
    (hstop : k = 0 ∨ (strStarts (strTrim (lines.getD (k - 1) "")) "@" = false
      ∧ (strTrim (lines.getD (k - 1) "") == "" || strStarts (strTrim (lines.getD (k - 1) "")) "*"
          || strStarts (strTrim (lines.getD (k - 1) "")) "//") = false)) :
    javaSignature lines index =
      if (annsRange lines k index).isEmpty then strTrim (lines.getD index "")
      else String.intercalate " " (annsRange lines k index) ++ " "
        ++ strTrim (lines.getD index "") := by
  unfold javaSignature
  rw [annScan_spec lines k index [] hk hrun hstop, List.append_nil]

/-- Claim C6, counterexample to the original statement: an annotation above
a blank line is still collected, so the signature of `class Foo {` below
`"@A"` and a blank line includes the annotation, while stopping at the
first blank line would leave the signature bare. -/
theorem javaSignature_blank_skip_cex :
    javaSignature ["@A", "", "class Foo \x7b"] 2 = "@A class Foo \x7b"
    ∧ strTrim ((["@A", "", "class Foo \x7b"] : List String).getD 1 "") = ""
    ∧ javaSignature ["@A", "", "class Foo \x7b"] 2 ≠ "class Foo \x7b" := by decide

/-- Witness for the amended Claim C6 at a concrete input. -/
theorem javaSignature_collect_witness :
    javaSignature ["@A", "class X \x7b"] 1 = "@A class X \x7b" :=
  (javaSignature_collect_thm ["@A", "class X \x7b"] 1 0 (by decide) (by decide)
    (by decide)).trans (by decide)

/-!  The model classifier  -/

/-- Claim C8 (confirmed): model-likeness is a pure function of the simple
name's suffix and the resolved path's directory vocabulary: a class named
`UserDTO` is model-like at every resolved path, and a class whose resolved
path contains a `/vo/` directory segment is model-like for every simple
name. -/
theorem isModelLikeClass_vocab_thm :
    (∀ p : String, isModelLikeClass "UserDTO" p = true)
    ∧ (∀ n p : String, strHasSub (normPathLower p) "/vo/" = true →
        isModelLikeClass n p = true) := by
  constructor
  · intro p
    unfold isModelLikeClass
    split
    · rfl
    · decide
  · intro n p h
    unfold isModelLikeClass
    rw [if_pos (by simp [h])]

/-- Witness for Claim C8 at a concrete input. -/
theorem isModelLikeClass_vocab_witness :
    isModelLikeClass "Customer" "/repo/src/main/java/com/x/vo/Customer.java" = true :=
  isModelLikeClass_vocab_thm.2 "Customer" "/repo/src/main/java/com/x/vo/Customer.java"
    (by decide)

/-!  The full-context output caps  -/

/-- Claim C10 (confirmed): the full-context output lists at most twenty
directly resolved imports and at most twenty fallback-resolved entries in
the `LOCAL_IMPORTS` sections, and expands at most fifteen model-like
entries into field lists in the `MODEL_FIELDS` section, even when more
entries were resolved or classified model-like. -/
theorem output_caps_thm (readFile : String → String)
    (resolvedImports fallbackResolved : List ResolvedImportInfo) :
    (localImportsRendered resolvedImports).length ≤ 20
    ∧ (fallbackImportsRendered fallbackResolved).length ≤ 20
    ∧ (modelFieldsRendered readFile (modelImportsOf resolvedImports)).length ≤ 15 := by
  refine ⟨?_, ?_, ?_⟩
  · simp only [localImportsRendered, List.length_map, List.length_take]
    omega
  · simp only [fallbackImportsRendered, List.length_map, List.length_take]
    omega
  · simp only [modelFieldsRendered, List.length_map, List.length_take]
    omega

/-!  String and list facts used by the dependency-resolver proofs  -/

theorem strData_append (a b : String) : (a ++ b).data = a.data ++ b.data := by
  cases a; cases b; rfl

theorem chrsPrefix_append (p t : List Char) : chrsPrefix p (p ++ t) = true := by
  induction p with
  | nil => rfl
  | cons c p ih => simp [chrsPrefix, ih]

theorem chrsPrefix_exists : ∀ p s : List Char, chrsPrefix p s = true → ∃ t, s = p ++ t := by
  intro p
  induction p with
  | nil => intro s _; exact ⟨s, rfl⟩
  | cons c p ih =>
    intro s h
    cases s with
    | nil => exact absurd h (by simp [chrsPrefix])
    | cons c' s =>
      simp only [chrsPrefix, Bool.and_eq_true] at h
      obtain ⟨h1, h2⟩ := h
      have hc : c = c' := by simpa using h1
      obtain ⟨t, ht⟩ := ih s h2
      exact ⟨t, by rw [hc, ht]; rfl⟩

theorem chrsSuffix_of_append (p t : List Char) : chrsSuffix p (t ++ p) = true := by
  unfold chrsSuffix
  rw [List.reverse_append]
  exact chrsPrefix_append _ _

theorem splitChar_ne_nil (sep : Char) (cs : List Char) : splitChar sep cs ≠ [] := by
  cases cs with
  | nil => simp [splitChar]
  | cons c cs =>
    unfold splitChar
    split
    · simp
    · split <;> simp

theorem splitChar_no_sep (sep : Char) : ∀ cs, sep ∉ cs → splitChar sep cs = [cs] := by
  intro cs
  induction cs with
  | nil => intro _; rfl
  | cons c cs ih =>
    intro h
    have hc : ¬ (c == sep) = true := by
      simp only [beq_iff_eq]
      intro hh
      exact h (hh ▸ List.mem_cons_self c cs)
    have hm : sep ∉ cs := fun hmm => h (List.mem_cons_of_mem c hmm)
    unfold splitChar
    rw [if_neg hc, ih hm]

theorem splitChar_two_of_mem (sep : Char) : ∀ cs, sep ∈ cs → 2 ≤ (splitChar sep cs).length := by
  intro cs
  induction cs with
  | nil => intro h; cases h
  | cons c cs ih =>
    intro h
    by_cases hc : (c == sep) = true
    · unfold splitChar
      rw [if_pos hc]
      have hne := splitChar_ne_nil sep cs
      have hlen : 0 < (splitChar sep cs).length := List.length_pos.mpr hne
      simp only [List.length_cons]
      omega
    · have hm : sep ∈ cs := by
        rcases List.mem_cons.mp h with h1 | h1
        · exact absurd (by simp [h1]) hc
        · exact h1
      unfold splitChar
      rw [if_neg hc]
      have h2 := ih hm
      cases hsc : splitChar sep cs with
      | nil => exact absurd hsc (splitChar_ne_nil sep cs)
      | cons s ss =>
        rw [hsc] at h2
        simp only [List.length_cons] at h2 ⊢
        omega

theorem getLastD_indep {α : Type} (l : List α) (d1 d2 : α) (h : l ≠ []) :
    l.getLastD d1 = l.getLastD d2 := by
  cases l with
  | nil => exact absurd rfl h
  | cons a l => rw [List.getLastD_cons, List.getLastD_cons]

theorem splitChar_last_suffix (sep : Char) :
    ∀ cs, sep ∈ cs → ∃ pre, cs = pre ++ sep :: ((splitChar sep cs).getLastD []) := by
  intro cs
  induction cs with
  | nil => intro h; cases h
  | cons c cs ih =>
    intro h
    by_cases hc : (c == sep) = true
    · have hceq : c = sep := by simpa using hc
      have hrw : splitChar sep (c :: cs) = [] :: splitChar sep cs := by
        rw [splitChar, if_pos hc]
      rw [hrw, List.getLastD_cons]
      by_cases hm : sep ∈ cs
      · obtain ⟨pre, hpre⟩ := ih hm
        refine ⟨c :: pre, ?_⟩
        rw [List.cons_append, ← hpre]
      · have hsc := splitChar_no_sep sep cs hm
        refine ⟨[], ?_⟩
        rw [hsc, hceq]
        simp [List.getLastD_cons]
    · have hm : sep ∈ cs := by
        rcases List.mem_cons.mp h with h1 | h1
        · exact absurd (by simp [h1]) hc
        · exact h1
      obtain ⟨pre, hpre⟩ := ih hm
      have h2 := splitChar_two_of_mem sep cs hm
      cases hsc : splitChar sep cs with
      | nil => exact absurd hsc (splitChar_ne_nil sep cs)
      | cons s ss =>
        have hss : ss ≠ [] := by
          rw [hsc] at h2
          simp only [List.length_cons] at h2
          intro hnil
          rw [hnil] at h2
          simp at h2
        have hrw : splitChar sep (c :: cs) = (c :: s) :: ss := by
          rw [splitChar, if_neg hc, hsc]
        rw [hrw, List.getLastD_cons, getLastD_indep ss (c :: s) s hss]
        rw [hsc, List.getLastD_cons] at hpre
        exact ⟨c :: pre, by rw [List.cons_append, ← hpre]⟩

theorem strEnds_lastSeg (pfx c : String) (h : strStarts c (pfx ++ ".") = true) :
    strEnds c ("." ++ lastSegStr c) = true := by
  obtain ⟨t, ht⟩ := chrsPrefix_exists (pfx ++ ".").data c.data h
  have hdot : '.' ∈ c.data := by
    rw [ht, strData_append]
    exact List.mem_append.mpr (Or.inl (List.mem_append.mpr (Or.inr (by decide))))
  obtain ⟨pre, hpre⟩ := splitChar_last_suffix '.' c.data hdot
  have hdata : ("." ++ lastSegStr c).data = '.' :: ((splitChar '.' c.data).getLastD []) := by
    rw [strData_append]; rfl
  have hgoal := chrsSuffix_of_append ('.' :: ((splitChar '.' c.data).getLastD [])) pre
  rw [← hpre] at hgoal
  show chrsSuffix ("." ++ lastSegStr c).data c.data = true
  rw [hdata]
  exact hgoal

/-!  Counter lemmas  -/

theorem countGet_bump (m : List (String × Nat)) (k s : String) :
    countGet (bumpCount m k) s = if k == s then countGet m s + 1 else countGet m s := by
  induction m with
  | nil =>
    by_cases h : (k == s) = true <;> simp [bumpCount, countGet, h]
  | cons p m ih =>
    obtain ⟨k', n⟩ := p
    by_cases h1 : (k' == k) = true
    · have hk : k' = k := by simpa using h1
      subst hk
      have hb : bumpCount ((k', n) :: m) k' = (k', n + 1) :: m := by simp [bumpCount]
      rw [hb]
      by_cases h2 : (k' == s) = true
      · simp [countGet, h2]
      · simp [countGet, h2]
    · have hb : bumpCount ((k', n) :: m) k = (k', n) :: bumpCount m k := by
        simp [bumpCount, h1]
      rw [hb]
      by_cases h2 : (k' == s) = true
      · have hks : ¬ (k == s) = true := by
          simp only [beq_iff_eq] at h1 h2 ⊢
          intro hh
          exact h1 (h2.trans hh.symm)
        simp [countGet, h2, hks]
      · simp [countGet, h2, ih]

theorem bump_keys_mem (m : List (String × Nat)) (k x : String) :
    x ∈ (bumpCount m k).map Prod.fst ↔ x ∈ m.map Prod.fst ∨ x = k := by
  induction m with
  | nil => simp [bumpCount]
  | cons p m ih =>
    obtain ⟨k', n⟩ := p
    by_cases h1 : (k' == k) = true
    · have hk : k' = k := by simpa using h1
      subst hk
      have hb : bumpCount ((k', n) :: m) k' = (k', n + 1) :: m := by
        simp [bumpCount]
      rw [hb]
      simp only [List.map_cons]
      constructor
      · intro hx; rcases List.mem_cons.mp hx with h | h
        · exact Or.inl (List.mem_cons.mpr (Or.inl h))
        · exact Or.inl (List.mem_cons.mpr (Or.inr h))
      · intro hx
        rcases hx with h | h
        · exact h
        · exact List.mem_cons.mpr (Or.inl h)
    · have hb : bumpCount ((k', n) :: m) k = (k', n) :: bumpCount m k := by
        simp [bumpCount, h1]
      rw [hb]
      simp only [List.map_cons, List.mem_cons, ih]
      tauto

theorem bump_keys_nodup (m : List (String × Nat)) (k : String)
    (h : (m.map Prod.fst).Nodup) : ((bumpCount m k).map Prod.fst).Nodup := by
  induction m with
  | nil => simp [bumpCount]
  | cons p m ih =>
    obtain ⟨k', n⟩ := p
    simp only [List.map_cons, List.nodup_cons] at h
    obtain ⟨hnotin, hnd⟩ := h
    by_cases h1 : (k' == k) = true
    · have hb : bumpCount ((k', n) :: m) k = (k', n + 1) :: m := by
        simp [bumpCount, h1]
      rw [hb, List.map_cons, List.nodup_cons]
      exact ⟨hnotin, hnd⟩
    · have hb : bumpCount ((k', n) :: m) k = (k', n) :: bumpCount m k := by
        simp [bumpCount, h1]
      rw [hb, List.map_cons, List.nodup_cons]
      constructor
      · intro hmem
        rcases (bump_keys_mem m k k').mp hmem with hcase | hcase
        · exact hnotin hcase
        · exact h1 (by simp [hcase])
      · exact ih hnd

theorem bump_vals (m : List (String × Nat)) (k : String)
    (hm : ∀ p ∈ m, 1 ≤ p.2 ∧ p.1 ≠ "") (hk : k ≠ "") :
    ∀ p ∈ bumpCount m k, 1 ≤ p.2 ∧ p.1 ≠ "" := by
  induction m with
  | nil =>
    intro p hp
    simp only [bumpCount, List.mem_singleton] at hp
    rw [hp]
    exact ⟨Nat.le_refl 1, hk⟩
  | cons q m ih =>
    obtain ⟨k', n⟩ := q
    intro p hp
    have hq := hm ⟨k', n⟩ (List.mem_cons_self _ _)
    by_cases h1 : (k' == k) = true
    · have hb : bumpCount ((k', n) :: m) k = (k', n + 1) :: m := by
        simp [bumpCount, h1]
      rw [hb] at hp
      rcases List.mem_cons.mp hp with h2 | h2
      · rw [h2]; exact ⟨by omega, hq.2⟩
      · exact hm p (List.mem_cons_of_mem _ h2)
    · have hb : bumpCount ((k', n) :: m) k = (k', n) :: bumpCount m k := by
        simp [bumpCount, h1]
      rw [hb] at hp
      rcases List.mem_cons.mp hp with h2 | h2
      · rw [h2]; exact hq
      · exact ih (fun q hq2 => hm q (List.mem_cons_of_mem _ hq2)) p h2

theorem countGet_of_mem_nodup (m : List (String × Nat)) (p : String × Nat)
    (hnd : (m.map Prod.fst).Nodup) (hp : p ∈ m) : countGet m p.1 = p.2 := by
  induction m with
  | nil => cases hp
  | cons q m ih =>
    obtain ⟨k', n⟩ := q
    simp only [List.map_cons, List.nodup_cons] at hnd
    rcases List.mem_cons.mp hp with h2 | h2
    · rw [h2]; simp [countGet]
    · have hne : ¬ (k' == p.1) = true := by
        simp only [beq_iff_eq]
        intro hh
        exact hnd.1 (hh ▸ List.mem_map.mpr ⟨p, h2, rfl⟩)
      simp only [countGet, if_neg hne]
      exact ih hnd.2 h2

/-!  Import-loop invariants  -/

theorem resolveStep_cases (resolve : String → Option String) (pExists : String → Bool)
    (st : ImportScan) (c : String) :
    resolveStep resolve pExists st c = st
    ∨ ∃ path, resolveStep resolve pExists st c =
        { st with resolvedImports := st.resolvedImports ++ [⟨c, path⟩]
                  seenImport := st.seenImport ++ [c] } := by
  cases hres : resolve c with
  | none =>
    left
    simp only [resolveStep, hres]
  | some r =>
    by_cases hp : pExists r = true
    · right
      exact ⟨r, by simp only [resolveStep, hres, if_pos hp]⟩
    · left
      simp only [resolveStep, hres, if_neg hp]

theorem resolveStep_count (resolve : String → Option String) (pExists : String → Bool)
    (st : ImportScan) (c : String) :
    (resolveStep resolve pExists st c).projectImportCount = st.projectImportCount := by
  rcases resolveStep_cases resolve pExists st c with h | ⟨path, h⟩ <;> rw [h]

theorem countStep_cases (st : ImportScan) (c : String) :
    (lastSegStr c ≠ "" ∧ countStep st c =
      { st with projectImportCount := bumpCount st.projectImportCount (lastSegStr c) })
    ∨ (lastSegStr c = "" ∧ countStep st c = st) := by
  unfold countStep
  by_cases h : (lastSegStr c != "") = true
  · exact Or.inl ⟨by simpa using h, by rw [if_pos h]⟩
  · refine Or.inr ⟨?_, by rw [if_neg h]⟩
    simpa using h

theorem importStep_cases (resolve : String → Option String) (pExists : String → Bool)
    (pfx : String) (st : ImportScan) (c : String) :
    (importStep resolve pExists pfx st c = st
      ∧ (strStarts c (pfx ++ ".") = false ∨ strHasSub c ".annotation." = true
          ∨ st.seenImport.contains c = true))
    ∨ (importStep resolve pExists pfx st c
        = countStep (resolveStep resolve pExists st c) c
      ∧ strStarts c (pfx ++ ".") = true ∧ strHasSub c ".annotation." = false
        ∧ st.seenImport.contains c = false) := by
  unfold importStep
  by_cases g1 : (! strStarts c (pfx ++ ".")) = true
  · rw [if_pos g1]
    exact Or.inl ⟨rfl, Or.inl (by simpa using g1)⟩
  · rw [if_neg g1]
    by_cases g2 : strHasSub c ".annotation." = true
    · rw [if_pos g2]
      exact Or.inl ⟨rfl, Or.inr (Or.inl g2)⟩
    · rw [if_neg g2]
      by_cases g3 : st.seenImport.contains c = true
      · rw [if_pos g3]
        exact Or.inl ⟨rfl, Or.inr (Or.inr g3)⟩
      · rw [if_neg g3]
        refine Or.inr ⟨rfl, by simpa using g1, by simpa using g2, by simpa using g3⟩

theorem StInv_resolveStep (pfx : String) (resolve : String → Option String)
    (pExists : String → Bool) (st : ImportScan) (c : String) (h : StInv pfx st)
    (hstart : strStarts c (pfx ++ ".") = true) :
    StInv pfx (resolveStep resolve pExists st c) := by
  rcases resolveStep_cases resolve pExists st c with hr | ⟨path, hr⟩
  · rw [hr]; exact h
  · rw [hr]
    refine ⟨?_, ?_, h.2.2.1, h.2.2.2⟩
    · simp only [List.map_append, ← h.1]
      rfl
    · intro r hrmem
      rcases List.mem_append.mp hrmem with hcase | hcase
      · exact h.2.1 r hcase
      · rw [List.mem_singleton.mp hcase]
        exact hstart

theorem StInv_countStep (pfx : String) (st : ImportScan) (c : String) (h : StInv pfx st) :
    StInv pfx (countStep st c) := by
  rcases countStep_cases st c with ⟨hne, hcs⟩ | ⟨_, hcs⟩
  · rw [hcs]
    exact ⟨h.1, h.2.1, bump_keys_nodup _ _ h.2.2.1, bump_vals _ _ h.2.2.2 hne⟩
  · rw [hcs]; exact h

theorem importStep_inv (resolve : String → Option String) (pExists : String → Bool)
    (pfx : String) (st : ImportScan) (c : String) (h : StInv pfx st) :
    StInv pfx (importStep resolve pExists pfx st c) := by
  rcases importStep_cases resolve pExists pfx st c with ⟨heq, _⟩ | ⟨heq, hstart, _, _⟩
  · rw [heq]; exact h
  · rw [heq]
    exact StInv_countStep pfx _ c (StInv_resolveStep pfx resolve pExists st c h hstart)

theorem importStep_resolved_mono (resolve : String → Option String) (pExists : String → Bool)
    (pfx : String) (st : ImportScan) (c : String) :
    ∀ r ∈ st.resolvedImports, r ∈ (importStep resolve pExists pfx st c).resolvedImports := by
  intro r hr
  rcases importStep_cases resolve pExists pfx st c with ⟨heq, _⟩ | ⟨heq, _, _, _⟩
  · rw [heq]; exact hr
  · rw [heq]
    have hcount : ∀ st2 : ImportScan, r ∈ st2.resolvedImports →
        r ∈ (countStep st2 c).resolvedImports := by
      intro st2 hr2
      rcases countStep_cases st2 c with ⟨_, hcs⟩ | ⟨_, hcs⟩ <;> rw [hcs] <;> exact hr2
    apply hcount
    rcases resolveStep_cases resolve pExists st c with hrs | ⟨path, hrs⟩ <;> rw [hrs]
    · exact hr
    · exact List.mem_append.mpr (Or.inl hr)

theorem foldl_resolved_mono (resolve : String → Option String) (pExists : String → Bool)
    (pfx : String) :
    ∀ (cs : List String) (st : ImportScan) (r : ResolvedImportInfo),
      r ∈ st.resolvedImports →
      r ∈ (List.foldl (importStep resolve pExists pfx) st cs).resolvedImports := by
  intro cs
  induction cs with
  | nil => intro st r hr; exact hr
  | cons c cs ih =>
    intro st r hr
    exact ih _ r (importStep_resolved_mono resolve pExists pfx st c r hr)

theorem foldl_inv (resolve : String → Option String) (pExists : String → Bool) (pfx : String) :
    ∀ (cs : List String) (st : ImportScan), StInv pfx st →
      StInv pfx (List.foldl (importStep resolve pExists pfx) st cs) := by
  intro cs
  induction cs with
  | nil => intro st h; exact h
  | cons c cs ih =>
    intro st h
    exact ih _ (importStep_inv resolve pExists pfx st c h)

theorem countGet_step (resolve : String → Option String) (pExists : String → Bool)
    (pfx : String) (st : ImportScan) (c s : String) (hs : s ≠ "")
    (hskip : st.seenImport.contains c = true → specOcc pfx s c = false) :
    countGet (importStep resolve pExists pfx st c).projectImportCount s
      = countGet st.projectImportCount s + (if specOcc pfx s c = true then 1 else 0) := by
  rcases importStep_cases resolve pExists pfx st c with ⟨heq, hg⟩ | ⟨heq, hstart, hannot, _⟩
  · rw [heq]
    have hocc : specOcc pfx s c = false := by
      rcases hg with hcase | hcase | hcase
      · simp [specOcc, hcase]
      · simp [specOcc, hcase]
      · exact hskip hcase
    rw [hocc]
    simp
  · rw [heq]
    have hrc := resolveStep_count resolve pExists st c
    rcases countStep_cases (resolveStep resolve pExists st c) c with ⟨_, hcs⟩ | ⟨he, hcs⟩
    · rw [hcs]
      show countGet (bumpCount (resolveStep resolve pExists st c).projectImportCount
        (lastSegStr c)) s = _
      rw [hrc, countGet_bump]
      have hocc : specOcc pfx s c = (lastSegStr c == s) := by
        simp [specOcc, hstart, hannot]
      rw [hocc]
      cases hls : (lastSegStr c == s) <;> simp [hls]
    · rw [hcs, hrc]
      have hocc : specOcc pfx s c = false := by
        have : (lastSegStr c == s) = false := by
          rw [he]
          exact beq_eq_false_iff_ne.mpr (Ne.symm hs)
        simp [specOcc, this]
      rw [hocc]
      simp

theorem scanFold_count (resolve : String → Option String) (pExists : String → Bool)
    (pfx s : String) (hs : s ≠ "") :
    ∀ (cs : List String) (st : ImportScan), StInv pfx st →
      (∀ r ∈ (List.foldl (importStep resolve pExists pfx) st cs).resolvedImports,
        strEnds r.className ("." ++ s) = false) →
      countGet (List.foldl (importStep resolve pExists pfx) st cs).projectImportCount s
        = countGet st.projectImportCount s + specCount pfx s cs := by
  intro cs
  induction cs with
  | nil => intro st _ _; simp [specCount]
  | cons c cs ih =>
    intro st hinv hnores
    simp only [List.foldl_cons] at hnores ⊢
    have hstep : countGet (importStep resolve pExists pfx st c).projectImportCount s
        = countGet st.projectImportCount s + (if specOcc pfx s c = true then 1 else 0) := by
      apply countGet_step resolve pExists pfx st c s hs
      intro hcontains
      obtain ⟨a', ha'mem, ha'eq⟩ := List.contains_iff_exists_mem_beq.mp hcontains
      have hca : c = a' := by simpa using ha'eq
      have hmem : c ∈ st.seenImport := hca ▸ ha'mem
      rw [hinv.1] at hmem
      obtain ⟨r, hrmem, hrc⟩ := List.mem_map.mp hmem
      by_contra hocc
      have hocc' : specOcc pfx s c = true := by
        cases hoc : specOcc pfx s c
        · exact absurd hoc hocc
        · rfl
      rw [specOcc, Bool.and_eq_true, Bool.and_eq_true] at hocc'
      obtain ⟨⟨hstart, _⟩, hls⟩ := hocc'
      have hlseq : lastSegStr c = s := by simpa using hls
      have hrfinal : r ∈ (List.foldl (importStep resolve pExists pfx)
          (importStep resolve pExists pfx st c) cs).resolvedImports :=
        foldl_resolved_mono resolve pExists pfx cs _ r
          (importStep_resolved_mono resolve pExists pfx st c r hrmem)
      have hend := hnores r hrfinal
      have hend' : strEnds r.className ("." ++ s) = true := by
        rw [hrc, ← hlseq]
        exact strEnds_lastSeg pfx c hstart
      rw [hend'] at hend
      cases hend
    have hspec : specCount pfx s (c :: cs)
        = (if specOcc pfx s c = true then 1 else 0) + specCount pfx s cs := by
      cases hoc : specOcc pfx s c <;>
        simp [specCount, List.filter_cons, hoc, Nat.add_comm]
    rw [ih (importStep resolve pExists pfx st c)
      (importStep_inv resolve pExists pfx st c hinv) hnores, hstep, hspec]
    omega

/-- Claim C5 (confirmed): the fallback-by-simple-name resolution is
attempted only for simple names whose occurrence count among the file's
project-prefixed, non-annotation imports is exactly one and which were not
resolved by direct resolution; in particular a simple name counted two or
more times is never passed to the fallback walk. -/
theorem fallback_candidates_unique_thm (resolve : String → Option String)
    (pExists : String → Bool) (projectPrefix : String) (classNames : List String) (s : String)
    (hmem : s ∈ unresolvedCandidates (scanImports resolve pExists projectPrefix classNames)) :
    specCount projectPrefix s classNames = 1
    ∧ ∀ r ∈ (scanImports resolve pExists projectPrefix classNames).resolvedImports,
        strEnds r.className ("." ++ s) = false := by
  have hinit : StInv projectPrefix ⟨[], [], []⟩ := by
    refine ⟨rfl, ?_, ?_, ?_⟩ <;> simp
  have hinv : StInv projectPrefix (scanImports resolve pExists projectPrefix classNames) :=
    foldl_inv resolve pExists projectPrefix classNames ⟨[], [], []⟩ hinit
  unfold unresolvedCandidates at hmem
  rw [List.mem_map] at hmem
  obtain ⟨p, hpmem, hps⟩ := hmem
  rw [List.mem_filter] at hpmem
  obtain ⟨hpin, hcond⟩ := hpmem
  rw [Bool.and_eq_true] at hcond
  obtain ⟨hle, hnoresolve⟩ := hcond
  have hle' : p.2 ≤ 1 := of_decide_eq_true hle
  have hany : (scanImports resolve pExists projectPrefix classNames).resolvedImports.any
      (fun item => strEnds item.className ("." ++ p.1)) = false := by
    cases hx : (scanImports resolve pExists projectPrefix classNames).resolvedImports.any
        (fun item => strEnds item.className ("." ++ p.1))
    · rfl
    · rw [hx] at hnoresolve
      cases hnoresolve
  have hnores : ∀ r ∈ (scanImports resolve pExists projectPrefix classNames).resolvedImports,
      strEnds r.className ("." ++ s) = false := by
    intro r hr
    have hfalse := List.any_eq_false.mp hany r hr
    rw [← hps]
    simpa using hfalse
  refine ⟨?_, hnores⟩
  have hvals := hinv.2.2.2 p hpin
  have hcg : countGet (scanImports resolve pExists projectPrefix
      classNames).projectImportCount p.1 = p.2 :=
    countGet_of_mem_nodup _ p hinv.2.2.1 hpin
  have hsne : s ≠ "" := hps ▸ hvals.2
  have hcount := scanFold_count resolve pExists projectPrefix s hsne classNames
    ⟨[], [], []⟩ hinit hnores
  rw [hps] at hcg
  unfold scanImports at hcg
  simp only [countGet] at hcount
  have hge := hvals.1
  omega

/-- Witness for Claim C5 at a concrete input. -/
theorem fallback_candidates_unique_witness :
    specCount "com.x" "Foo" ["com.x.util.Foo"] = 1
    ∧ ∀ r ∈ (scanImports (fun _ => none) (fun _ => false) "com.x"
        ["com.x.util.Foo"]).resolvedImports,
        strEnds r.className ("." ++ "Foo") = false :=
  fallback_candidates_unique_thm (fun _ => none) (fun _ => false) "com.x"
    ["com.x.util.Foo"] "Foo" (by decide)

/-!  Dependency resolution stays under the project root  -/

theorem findInEntriesWith_under (fsys : FileSys) (classSegs : List String)
    (descend : List String → Option (List String))
    (hrec : ∀ d p, descend d = some p → ∃ t, p = d ++ t) :
    ∀ (es : List FSEntry) (dir p : List String),
      findInEntriesWith fsys classSegs descend dir es = some p → ∃ t, p = dir ++ t := by
  intro es
  induction es with
  | nil =>
    intro dir p h
    exact absurd h (by simp [findInEntriesWith])
  | cons e es ih =>
    intro dir p h
    unfold findInEntriesWith at h
    split at h
    · split at h
      · split at h
        · cases h
          exact ⟨[e.name, "src", "main", "java"] ++ classSegs, by rw [List.append_assoc]⟩
        · exact ih dir p h
      · split at h
        · split at h
          · next found hfound =>
            cases h
            obtain ⟨t, ht⟩ := hrec _ _ hfound
            exact ⟨[e.name] ++ t, by rw [ht, List.append_assoc]⟩
          · exact ih dir p h
        · exact ih dir p h
    · exact ih dir p h

theorem findInDir_under (fsys : FileSys) (classSegs : List String) :
    ∀ (fuel : Nat) (dir p : List String),
      findInDir fsys classSegs fuel dir = some p → ∃ t, p = dir ++ t := by
  intro fuel
  induction fuel with
  | zero =>
    intro dir p h
    exact absurd h (by simp [findInDir])
  | succ fuel ih =>
    intro dir p h
    unfold findInDir at h
    split at h
    · exact absurd h (by simp)
    · next entries hentries =>
      exact findInEntriesWith_under fsys classSegs _ (fun d q hq => ih d q hq) entries dir p h

theorem walkStep_under (fsys : FileSys) (nameSet : List String) (root current : List String)
    (hcur : ∃ t, current = root ++ t)
    (st : List ResolvedImportSeg × List String × List (List String)) (e : FSEntry)
    (h1 : ∀ a ∈ st.1, ∃ t, a.resolvedPath = root ++ t)
    (h2 : ∀ d ∈ st.2.2, ∃ t, d = root ++ t) :
    (∀ a ∈ (walkStep fsys nameSet current st e).1, ∃ t, a.resolvedPath = root ++ t)
    ∧ (∀ d ∈ (walkStep fsys nameSet current st e).2.2, ∃ t, d = root ++ t) := by
  obtain ⟨t0, ht0⟩ := hcur
  unfold walkStep
  split
  · split
    · exact ⟨h1, h2⟩
    · refine ⟨h1, ?_⟩
      intro d hd
      rcases List.mem_cons.mp hd with hcase | hcase
      · exact ⟨t0 ++ [e.name], by rw [hcase, ht0, List.append_assoc]⟩
      · exact h2 d hcase
  · split
    · exact ⟨h1, h2⟩
    · split
      · exact ⟨h1, h2⟩
      · split
        · exact ⟨h1, h2⟩
        · split
          · exact ⟨h1, h2⟩
          · refine ⟨?_, h2⟩
            intro a ha
            rcases List.mem_append.mp ha with hcase | hcase
            · exact h1 a hcase
            · rw [List.mem_singleton.mp hcase]
              exact ⟨t0 ++ [e.name], by rw [ht0, List.append_assoc]⟩

theorem walkFold_under (fsys : FileSys) (nameSet : List String) (root current : List String)
    (hcur : ∃ t, current = root ++ t) :
    ∀ (es : List FSEntry) (st : List ResolvedImportSeg × List String × List (List String)),
      (∀ a ∈ st.1, ∃ t, a.resolvedPath = root ++ t) →
      (∀ d ∈ st.2.2, ∃ t, d = root ++ t) →
      (∀ a ∈ (es.foldl (walkStep fsys nameSet current) st).1, ∃ t, a.resolvedPath = root ++ t)
      ∧ (∀ d ∈ (es.foldl (walkStep fsys nameSet current) st).2.2, ∃ t, d = root ++ t) := by
  intro es
  induction es with
  | nil => intro st h1 h2; exact ⟨h1, h2⟩
  | cons e es ih =>
    intro st h1 h2
    simp only [List.foldl_cons]
    have hstep := walkStep_under fsys nameSet root current hcur st e h1 h2
    exact ih _ hstep.1 hstep.2

theorem walkLoop_under (fsys : FileSys) (nameSet : List String) (root : List String) :
    ∀ (fuel : Nat) (stack : List (List String)) (acc : List ResolvedImportSeg)
      (seen : List String) (rs : List ResolvedImportSeg),
      (∀ d ∈ stack, ∃ t, d = root ++ t) →
      (∀ a ∈ acc, ∃ t, a.resolvedPath = root ++ t) →
      walkLoop fsys nameSet fuel stack acc seen = some rs →
      ∀ r ∈ rs, ∃ t, r.resolvedPath = root ++ t := by
  intro fuel
  induction fuel with
  | zero =>
    intro stack acc seen rs _ _ h
    exact absurd h (by simp [walkLoop])
  | succ fuel ih =>
    intro stack acc seen rs hstack hacc h
    cases stack with
    | nil =>
      simp only [walkLoop, Option.some.injEq] at h
      rw [← h]
      exact hacc
    | cons current rest =>
      simp only [walkLoop] at h
      split at h
      · exact absurd h (by simp)
      · next entries hentries =>
        have hcur : ∃ t, current = root ++ t := hstack current (List.mem_cons_self _ _)
        have hfold := walkFold_under fsys nameSet root current hcur entries (acc, seen, rest)
          hacc (fun d hd => hstack d (List.mem_cons_of_mem _ hd))
        exact ih _ _ _ rs hfold.2 hfold.1 h

/-- Claim C4 (confirmed): every absolute path produced by dependency
resolution — direct resolution via `resolveJavaPathGeneric` or fallback
via `resolveBySimpleNames` — lies inside the directory tree rooted at the
project root discovered by `findProjectRoot` from the input file's path. -/
theorem dependencyResolution_under_root_thm :
    (∀ (fsys : FileSys) (fuel : Nat) (currentPath : List String) (className : String)
        (p : List String),
      resolveJavaPathGeneric fsys fuel currentPath className = some p →
      ∃ root t, findProjectRoot fsys currentPath = some root ∧ p = root ++ t)
    ∧ (∀ (fsys : FileSys) (fuel : Nat) (currentPath : List String) (names : List String)
        (rs : List ResolvedImportSeg) (r : ResolvedImportSeg),
      resolveBySimpleNames fsys fuel currentPath names = some rs → r ∈ rs →
      ∃ root t, findProjectRoot fsys currentPath = some root ∧ r.resolvedPath = root ++ t) := by
  constructor
  · intro fsys fuel currentPath className p h
    unfold resolveJavaPathGeneric at h
    split at h
    · exact absurd h (by simp)
    · next root hroot =>
      refine ⟨root, ?_⟩
      split at h
      · split at h
        · cases h
          exact ⟨["src", "main", "java"] ++ classFileSegs className, hroot,
            by rw [List.append_assoc]⟩
        · obtain ⟨t, ht⟩ := findInDir_under fsys _ fuel root p h
          exact ⟨t, hroot, ht⟩
      · obtain ⟨t, ht⟩ := findInDir_under fsys _ fuel root p h
        exact ⟨t, hroot, ht⟩
  · intro fsys fuel currentPath names rs r h hr
    unfold resolveBySimpleNames at h
    split at h
    · cases h
      cases hr
    · next root hroot =>
      split at h
      · cases h
        cases hr
      · obtain ⟨t, ht⟩ := walkLoop_under fsys names root fuel [root] [] [] rs
          (fun d hd => ⟨[], by rw [List.mem_singleton.mp hd, List.append_nil]⟩)
          (fun a ha => absurd ha (List.not_mem_nil a))
          h r hr
        exact ⟨root, t, hroot, ht⟩

/-- Witness for Claim C4 at concrete inputs, one per resolution mode. -/
theorem dependencyResolution_under_root_witness :
    (∃ root t, findProjectRoot wfsA ["proj", "A.java"] = some root
      ∧ ["proj", "src", "main", "java", "com", "x", "B.java"] = root ++ t)
    ∧ (∃ root t, findProjectRoot wfsB ["proj", "A.java"] = some root
      ∧ ["proj", "B.java"] = root ++ t) :=
  ⟨dependencyResolution_under_root_thm.1 wfsA 1 ["proj", "A.java"] "com.x.B"
      ["proj", "src", "main", "java", "com", "x", "B.java"] (by decide),
    dependencyResolution_under_root_thm.2 wfsB 2 ["proj", "A.java"] ["B"]
      [⟨"com.x.B", ["proj", "B.java"]⟩] ⟨"com.x.B", ["proj", "B.java"]⟩
      (by decide) (by decide)⟩

end CodeSearch
